import Mathlib

/-!
# Verification of a DPLL SAT solver (`src/solver.rs`)

This file gives a shallow embedding of the solver: `Literal`, `Formula` and
`Assignment` mirror the Rust structs, and every operation mirrors the
corresponding Rust function.  Rust's `Vec` indexing panics when the index is
out of bounds; those panics are modelled by `Option`-valued operations
(`none` = panic), and the recursive `dpll` function is given explicit fuel,
with a distinguished `fuelOut` result so that fuel exhaustion (an artifact of
the embedding) is never confused with a panic.
-/

/-- Rust `struct Literal` in solver.rs: a variable id and whether that variable is
negated. -/
structure Literal where
  var_id : Nat
  negated : Bool
deriving DecidableEq, Repr

/-- Rust `impl Not for Literal`: flips the `negated` flag, keeps the id. -/
def Literal.not (l : Literal) : Literal :=
  { var_id := l.var_id, negated := !l.negated }

/-- Rust `Literal::new`: built from a signed integer; the magnitude is the variable
id and the sign the polarity. -/
def Literal.new (v : Int) : Literal :=
  { var_id := v.natAbs, negated := decide (v < 0) }

/-- Rust `struct Formula`: a list of clauses (each a list of literals) plus the
declared number of variables. -/
structure Formula where
  formula : List (List Literal)
  num_vars : Nat
deriving DecidableEq, Repr

/-- Rust `struct Assignment`: element `i` of the vector is the recorded polarity of
variable `i` (the `negated` flag of the literal that was assigned), index 0
unused; `num_assigned` counts the assigned variables. -/
structure Assignment where
  assignment : List (Option Bool)
  num_assigned : Nat
deriving DecidableEq, Repr

namespace Assignment

/-- Rust `Assignment::new`: `num_vars + 1` unassigned slots, nothing assigned. -/
def new (num_vars : Nat) : Assignment :=
  { assignment := List.replicate (num_vars + 1) none, num_assigned := 0 }

/-- Rust `Assignment::is_assigned`: `Some(lit.negated) == self.assignment[lit.var_id]`.
The Rust indexing panics when `var_id` is out of bounds; the panic is the
`none` result. -/
def is_assigned (a : Assignment) (l : Literal) : Option Bool :=
  (a.assignment[l.var_id]?).map (fun v => decide (some l.negated = v))

/-- Rust `Assignment::is_not_negated`: `Some(!lit.negated) != self.assignment[lit.var_id]`,
with `none` modelling the out-of-bounds panic. -/
def is_not_negated (a : Assignment) (l : Literal) : Option Bool :=
  (a.assignment[l.var_id]?).map (fun v => decide (some (!l.negated) ≠ v))

/-- Rust `Assignment::next_literal`: the non-negated literal on variable
`num_assigned + 1`. -/
def next_literal (a : Assignment) : Literal :=
  { var_id := a.num_assigned + 1, negated := false }

/-- Rust `Assignment::assign`: `self.assignment[lit.var_id] = Some(lit.negated)` and
`num_assigned += 1`; `none` models the out-of-bounds panic of the write. -/
def assign (a : Assignment) (l : Literal) : Option Assignment :=
  if l.var_id < a.assignment.length then
    some { assignment := a.assignment.set l.var_id (some l.negated),
           num_assigned := a.num_assigned + 1 }
  else none

/-- Rust `Assignment::un_assign`: `self.assignment[lit.var_id] = None` and
`num_assigned -= 1`; `none` models the out-of-bounds panic of the write. -/
def un_assign (a : Assignment) (l : Literal) : Option Assignment :=
  if l.var_id < a.assignment.length then
    some { assignment := a.assignment.set l.var_id none,
           num_assigned := a.num_assigned - 1 }
  else none

end Assignment

namespace Formula

/-- Inner loop of `Formula::solved`: scan the clause for a literal that
`is_assigned` holds for; stops at the first hit, propagating a panic. -/
def clause_sat (a : Assignment) : List Literal → Option Bool
  | [] => some false
  | l :: ls =>
    match a.is_assigned l with
    | none => none
    | some true => some true
    | some false => clause_sat a ls

/-- Outer loop of `Formula::solved`: `false` as soon as some clause has no
satisfied literal, `true` when every clause has one. -/
def solved_clauses (a : Assignment) : List (List Literal) → Option Bool
  | [] => some true
  | c :: cs =>
    match clause_sat a c with
    | none => none
    | some true => solved_clauses a cs
    | some false => some false

/-- Rust `Formula::solved`. -/
def solved (F : Formula) (a : Assignment) : Option Bool :=
  solved_clauses a F.formula

/-- Inner loop of `Formula::unsolvable`: scan the clause for a literal that
`is_not_negated` holds for. -/
def clause_live (a : Assignment) : List Literal → Option Bool
  | [] => some false
  | l :: ls =>
    match a.is_not_negated l with
    | none => none
    | some true => some true
    | some false => clause_live a ls

/-- Outer loop of `Formula::unsolvable`: `true` as soon as some clause has no
literal with `is_not_negated`. -/
def unsolvable_clauses (a : Assignment) : List (List Literal) → Option Bool
  | [] => some false
  | c :: cs =>
    match clause_live a c with
    | none => none
    | some true => unsolvable_clauses a cs
    | some false => some true

/-- Rust `Formula::unsolvable`. -/
def unsolvable (F : Formula) (a : Assignment) : Option Bool :=
  unsolvable_clauses a F.formula

end Formula

/-- Result of a `dpll` call: `out b a` is the Rust return value `b` together
with the state of the (mutated in place) assignment; `oob` models a Rust
index-out-of-bounds panic; `fuelOut` is exhaustion of the embedding's fuel,
an artifact never reached from `solve` (see `dpll_total`). -/
inductive DpllResult where
  | out (b : Bool) (a : Assignment)
  | oob
  | fuelOut
deriving DecidableEq, Repr

/-- The nested function `dpll` of `Formula::solve`, with explicit fuel.  The
Rust function mutates `assignment`; here every intermediate state is passed
explicitly, in the exact order of the source: `solved` check, `unsolvable`
check, assign `next`, first recursive call, on failure un-assign `next`
(sic — not `!next`), assign `!next`, second recursive call, on failure
un-assign `next` again.  The source binds `next` once, before the state is
mutated; since the entry state `a` is immutable here, `a.next_literal` is
written in place of `next` throughout — the same value. -/
def dpll : Nat → Formula → Assignment → DpllResult
  | 0, _, _ => .fuelOut
  | fuel + 1, F, a =>
    match F.solved a with
    | none => .oob
    | some true => .out true a
    | some false =>
      match F.unsolvable a with
      | none => .oob
      | some true => .out false a
      | some false =>
        match a.assign a.next_literal with
        | none => .oob
        | some a1 =>
          match dpll fuel F a1 with
          | .out true a2 => .out true a2
          | .out false a2 =>
            match a2.un_assign a.next_literal with
            | none => .oob
            | some a3 =>
              match a3.assign a.next_literal.not with
              | none => .oob
              | some a4 =>
                match dpll fuel F a4 with
                | .out true a5 => .out true a5
                | .out false a5 =>
                  match a5.un_assign a.next_literal with
                  | none => .oob
                  | some a6 => .out false a6
                | r => r
          | r => r

/-- Rust `Formula::solve`: run `dpll` on a fresh assignment.  `some (some a)` is
Rust's `Some(a)`, `some none` is Rust's `None`, and `none` models a panic
during the search.  The fuel `num_vars + 1` bounds the recursion depth, which
is sufficient because each recursive call strictly increases `num_assigned`
(proved in `dpll_total`). -/
def Formula.solve (F : Formula) : Option (Option Assignment) :=
  match dpll (F.num_vars + 1) F (Assignment.new F.num_vars) with
  | .out true a => some (some a)
  | .out false _ => some none
  | .oob => none
  | .fuelOut => none

/-- The Formula invariant stated by the spec's data model (§3): every literal
occurring in a clause has its variable id in `[1, num_vars]`. -/
def Formula.WF (F : Formula) : Prop :=
  ∀ c ∈ F.formula, ∀ l ∈ c, 1 ≤ l.var_id ∧ l.var_id ≤ F.num_vars

instance : DecidablePred Formula.WF := fun F =>
  inferInstanceAs (Decidable (∀ c ∈ F.formula, ∀ l ∈ c, _ ∧ _))

/-- Search-state invariant maintained by `dpll`: the variables holding a
recorded polarity are exactly `1 .. num_assigned`. -/
def Assignment.Inv (a : Assignment) : Prop :=
  ∀ i < a.assignment.length,
    ((∃ b, a.assignment[i]? = some (some b)) ↔ (1 ≤ i ∧ i ≤ a.num_assigned))

instance : DecidablePred Assignment.Inv := fun a =>
  inferInstanceAs (Decidable (∀ i < a.assignment.length, _ ↔ _))

/-- The assignment records exactly the literal's polarity for its variable:
this is what `is_assigned` tests (the literal is satisfied by the current
partial assignment). -/
def litTrue (a : Assignment) (l : Literal) : Prop :=
  a.assignment[l.var_id]? = some (some l.negated)

instance : ∀ a l, Decidable (litTrue a l) := fun _ _ =>
  inferInstanceAs (Decidable (_ = _))

/-- The assignment records the opposite of the literal's polarity: the
complementary literal is assigned, so the literal is falsified. -/
def litFalse (a : Assignment) (l : Literal) : Prop :=
  a.assignment[l.var_id]? = some (some (!l.negated))

instance : ∀ a l, Decidable (litFalse a l) := fun _ _ =>
  inferInstanceAs (Decidable (_ = _))

/-- A total assignment of truth values satisfies a literal iff the variable's
value matches the literal's polarity. -/
def litSat (σ : Nat → Bool) (l : Literal) : Prop :=
  σ l.var_id = !l.negated

/-- A total assignment satisfies a formula iff every clause contains a
satisfied literal. -/
def Satisfies (σ : Nat → Bool) (F : Formula) : Prop :=
  ∀ c ∈ F.formula, ∃ l ∈ c, litSat σ l

/-- A total assignment agrees with a partial `Assignment` if it gives truth
value `!b` to every variable with recorded polarity `b` (the record stores the
`negated` flag of the assigned literal). -/
def Agrees (σ : Nat → Bool) (a : Assignment) : Prop :=
  ∀ v b, a.assignment[v]? = some (some b) → σ v = !b

/-- One iteration of the loop in `impl fmt::Display for Assignment`: an
assigned variable is written as `"{}{} "` (a `-` prefix when the recorded
polarity is negated, then the id, then a space); an unassigned variable is
written as `"{} UNASSIGNED"` — note, exactly as in the source, without a
trailing separator. -/
def renderEntry (var_id : Nat) : Option Bool → String
  | some n => (if n then "-" else "") ++ toString var_id ++ " "
  | none => toString var_id ++ " UNASSIGNED"

/-- The loop of `fmt` over `enumerate().skip(1)`, followed by the final
`write!(f, "0")`. -/
def renderFrom : Nat → List (Option Bool) → String
  | _, [] => "0"
  | i, v :: vs => renderEntry i v ++ renderFrom (i + 1) vs

/-- Rust `impl fmt::Display for Assignment`: the full rendered string. -/
def Assignment.render (a : Assignment) : String :=
  renderFrom 1 (a.assignment.drop 1)

/-- Helper for `wsTokens`: `cur` is the (reversed) non-whitespace run being
read. -/
def wsTokensAux : List Char → List Char → List (List Char)
  | cur, [] => if cur = [] then [] else [cur.reverse]
  | cur, c :: cs =>
    if c.isWhitespace then
      if cur = [] then wsTokensAux [] cs else cur.reverse :: wsTokensAux [] cs
    else wsTokensAux (c :: cur) cs

/-- Models `str::split_whitespace` on a character list: the maximal runs of
non-whitespace characters, in order. -/
def wsTokens (l : List Char) : List (List Char) :=
  wsTokensAux [] l

/-- Decimal value of a digit list, as accumulated by integer parsing. -/
def digitsVal (l : List Char) : Nat :=
  l.foldl (fun n c => n * 10 + (c.toNat - 48)) 0

/-- Models `usize::from_str` as used for the problem-line arguments: an
optional `+` sign followed by one or more decimal digits, rejecting values
beyond 64 bits. -/
def parseUsize (s : List Char) : Option Nat :=
  let digits := if s.head? = some '+' then s.drop 1 else s
  if digits ≠ [] ∧ digits.all Char.isDigit then
    if digitsVal digits < 2 ^ 64 then some (digitsVal digits) else none
  else none

/-- Models `i32::from_str` as used for literal tokens: an optional sign
followed by one or more decimal digits, rejecting values outside the `i32`
range. -/
def parseI32 (s : List Char) : Option Int :=
  match s with
  | '-' :: rest =>
    if rest ≠ [] ∧ rest.all Char.isDigit ∧ digitsVal rest ≤ 2 ^ 31 then
      some (-(digitsVal rest : Int))
    else none
  | '+' :: rest =>
    if rest ≠ [] ∧ rest.all Char.isDigit ∧ digitsVal rest < 2 ^ 31 then
      some (digitsVal rest : Int)
    else none
  | rest =>
    if rest ≠ [] ∧ rest.all Char.isDigit ∧ digitsVal rest < 2 ^ 31 then
      some (digitsVal rest : Int)
    else none

/-- The first loop of `Formula::parse_dimacs`: skip comment lines starting
with `c`; on a line starting with `p`, check the problem line has exactly
three arguments with the first `cnf`, parse the other two, and stop,
returning the remaining lines; any other line is an error; running out of
lines leaves the initial `(0, 0)` (caught by the caller's zero check). -/
def parseHeader : List String → Except String (Nat × Nat × List String)
  | [] => .ok (0, 0, [])
  | line :: rest =>
    if line.data.head? = some 'c' then parseHeader rest
    else if line.data.head? = some 'p' then
      match (wsTokens line.data).drop 1 with
      | [a0, a1, a2] =>
        if a0 ≠ "cnf".data then .error "Illegal problem line"
        else
          match parseUsize a1 with
          | none => .error "2nd argument in problem line not valid"
          | some nv =>
            match parseUsize a2 with
            | none => .error "3rd argument in problem line not valid"
            | some nc => .ok (nv, nc, rest)
      | _ => .error "Illegal problem line"
    else .error "Illegal problem line"

/-- The second loop of `parse_dimacs`: fold the integer tokens into the
pre-allocated clause vector; a `0` token moves to the next clause, any other
token is pushed onto the current clause, and indexing past the declared
clause count is the "Too many clauses" error. -/
def fill : List (List Literal) → Nat → List (List Char) →
    Except String (List (List Literal) × Nat)
  | f, clause, [] => .ok (f, clause)
  | f, clause, t :: ts =>
    match parseI32 t with
    | none => .error "Illegal variable"
    | some v =>
      if v = 0 then fill f (clause + 1) ts
      else
        match f.get? clause with
        | none => .error "Too many clauses"
        | some c => fill (f.set clause (c ++ [Literal.new v])) clause ts

/-- Rust `Formula::parse_dimacs`, with the file contents given as its list of
lines.  The variable section is the concatenation of the remaining lines,
each with a space appended, split on whitespace — exactly the source's
`lines.map(|l| l.unwrap() + " ").collect()` followed by `split_whitespace`. -/
def Formula.parse_dimacs (lines : List String) : Except String Formula :=
  match parseHeader lines with
  | .error e => .error e
  | .ok (nv, nc, rest) =>
    if nv = 0 ∨ nc = 0 then .error "Illegal problem line"
    else
      let toks := wsTokens ((rest.map (fun l => l.data ++ [' '])).flatten)
      match fill (List.replicate nc []) 0 toks with
      | .error e => .error e
      | .ok (f, clause) =>
        if clause ≠ nc then .error "Too few clauses"
        else .ok { formula := f, num_vars := nv }

/-- Sanity check of the parser embedding on a well-formed DIMACS input with a
comment line, clauses split across lines, and signed literals. -/
theorem parse_dimacs_example :
    Formula.parse_dimacs ["c comment", "p cnf 2 2", "1 -2 0", "-1 0"] =
      .ok { formula := [[⟨1, false⟩, ⟨2, true⟩], [⟨1, true⟩]], num_vars := 2 } := by
  rfl

/-! ## Basic lemmas about the literal tests -/

theorem Assignment.is_assigned_eq_some_true {a : Assignment} {l : Literal}
    (h : a.is_assigned l = some true) : litTrue a l := by
  unfold Assignment.is_assigned at h
  cases hv : a.assignment[l.var_id]? with
  | none => rw [hv] at h; simp at h
  | some v =>
    rw [hv] at h
    simp only [Option.map] at h
    simp at h
    rw [litTrue, hv, ← h]

theorem Assignment.is_assigned_eq_some_false {a : Assignment} {l : Literal}
    (h : a.is_assigned l = some false) :
    ∃ v, a.assignment[l.var_id]? = some v ∧ v ≠ some l.negated := by
  unfold Assignment.is_assigned at h
  cases hv : a.assignment[l.var_id]? with
  | none => rw [hv] at h; simp at h
  | some v =>
    rw [hv] at h
    simp at h
    exact ⟨v, rfl, fun hh => h hh.symm⟩

theorem Assignment.is_assigned_of_litTrue {a : Assignment} {l : Literal}
    (h : litTrue a l) : a.is_assigned l = some true := by
  rw [Assignment.is_assigned, h]
  simp

theorem Assignment.is_assigned_isSome {a : Assignment} {l : Literal}
    (h : l.var_id < a.assignment.length) : ∃ b, a.is_assigned l = some b := by
  rw [Assignment.is_assigned, List.getElem?_eq_getElem h]
  exact ⟨_, rfl⟩

theorem Assignment.is_not_negated_eq_some_false {a : Assignment} {l : Literal}
    (h : a.is_not_negated l = some false) : litFalse a l := by
  unfold Assignment.is_not_negated at h
  cases hv : a.assignment[l.var_id]? with
  | none => rw [hv] at h; simp at h
  | some v =>
    rw [hv] at h
    simp at h
    rw [litFalse, hv, ← h]

theorem Assignment.is_not_negated_of_litFalse {a : Assignment} {l : Literal}
    (h : litFalse a l) : a.is_not_negated l = some false := by
  rw [Assignment.is_not_negated, h]
  simp

theorem Assignment.is_not_negated_isSome {a : Assignment} {l : Literal}
    (h : l.var_id < a.assignment.length) : ∃ b, a.is_not_negated l = some b := by
  rw [Assignment.is_not_negated, List.getElem?_eq_getElem h]
  exact ⟨_, rfl⟩

/-! ## Lemmas about the clause scans of `solved` and `unsolvable` -/

namespace Formula

theorem clause_sat_true {a : Assignment} {c : List Literal}
    (h : clause_sat a c = some true) : ∃ l ∈ c, litTrue a l := by
  induction c with
  | nil => simp [clause_sat] at h
  | cons l ls ih =>
    rw [clause_sat] at h
    cases hl : a.is_assigned l with
    | none => rw [hl] at h; exact absurd h (by simp)
    | some b =>
      rw [hl] at h
      cases b with
      | true => exact ⟨l, List.mem_cons_self .., a.is_assigned_eq_some_true hl⟩
      | false =>
        obtain ⟨l', hmem, ht⟩ := ih h
        exact ⟨l', List.mem_cons_of_mem _ hmem, ht⟩

theorem clause_sat_false {a : Assignment} {c : List Literal}
    (h : clause_sat a c = some false) :
    ∀ l ∈ c, ∃ v, a.assignment[l.var_id]? = some v ∧ v ≠ some l.negated := by
  induction c with
  | nil => simp
  | cons l ls ih =>
    rw [clause_sat] at h
    cases hl : a.is_assigned l with
    | none => rw [hl] at h; exact absurd h (by simp)
    | some b =>
      rw [hl] at h
      cases b with
      | true => exact absurd h (by simp)
      | false =>
        intro l' hmem
        rcases List.mem_cons.1 hmem with rfl | hmem'
        · exact a.is_assigned_eq_some_false hl
        · exact ih h l' hmem'

theorem clause_sat_of_litTrue {a : Assignment} {c : List Literal}
    (hin : ∀ l ∈ c, l.var_id < a.assignment.length)
    (h : ∃ l ∈ c, litTrue a l) : clause_sat a c = some true := by
  induction c with
  | nil => simp at h
  | cons l ls ih =>
    rw [clause_sat]
    cases hl : a.is_assigned l with
    | none =>
      obtain ⟨b, hb⟩ := a.is_assigned_isSome (hin l (List.mem_cons_self ..))
      rw [hl] at hb; exact absurd hb (by simp)
    | some b =>
      cases b with
      | true => rfl
      | false =>
        rcases h with ⟨l', hmem, ht⟩
        rcases List.mem_cons.1 hmem with rfl | hmem'
        · rw [a.is_assigned_of_litTrue ht] at hl; exact absurd hl (by simp)
        · exact ih (fun x hx => hin x (List.mem_cons_of_mem _ hx)) ⟨l', hmem', ht⟩

theorem clause_sat_isSome {a : Assignment} {c : List Literal}
    (hin : ∀ l ∈ c, l.var_id < a.assignment.length) :
    ∃ b, clause_sat a c = some b := by
  induction c with
  | nil => exact ⟨false, rfl⟩
  | cons l ls ih =>
    rw [clause_sat]
    obtain ⟨b, hb⟩ := a.is_assigned_isSome (hin l (List.mem_cons_self ..))
    rw [hb]
    cases b with
    | true => exact ⟨true, rfl⟩
    | false => exact ih fun x hx => hin x (List.mem_cons_of_mem _ hx)

theorem clause_live_false {a : Assignment} {c : List Literal}
    (h : clause_live a c = some false) : ∀ l ∈ c, litFalse a l := by
  induction c with
  | nil => simp
  | cons l ls ih =>
    rw [clause_live] at h
    cases hl : a.is_not_negated l with
    | none => rw [hl] at h; exact absurd h (by simp)
    | some b =>
      rw [hl] at h
      cases b with
      | true => exact absurd h (by simp)
      | false =>
        intro l' hmem
        rcases List.mem_cons.1 hmem with rfl | hmem'
        · exact a.is_not_negated_eq_some_false hl
        · exact ih h l' hmem'

theorem clause_live_of_litFalse {a : Assignment} {c : List Literal}
    (h : ∀ l ∈ c, litFalse a l) : clause_live a c = some false := by
  induction c with
  | nil => rfl
  | cons l ls ih =>
    rw [clause_live, a.is_not_negated_of_litFalse (h l (List.mem_cons_self ..))]
    exact ih fun x hx => h x (List.mem_cons_of_mem _ hx)

theorem clause_live_isSome {a : Assignment} {c : List Literal}
    (hin : ∀ l ∈ c, l.var_id < a.assignment.length) :
    ∃ b, clause_live a c = some b := by
  induction c with
  | nil => exact ⟨false, rfl⟩
  | cons l ls ih =>
    rw [clause_live]
    obtain ⟨b, hb⟩ := a.is_not_negated_isSome (hin l (List.mem_cons_self ..))
    rw [hb]
    cases b with
    | true => exact ⟨true, rfl⟩
    | false => exact ih fun x hx => hin x (List.mem_cons_of_mem _ hx)

end Formula

/-! ## Lemmas about the outer loops of `solved` and `unsolvable` -/

namespace Formula

theorem solved_clauses_true {a : Assignment} {cs : List (List Literal)}
    (h : solved_clauses a cs = some true) : ∀ c ∈ cs, clause_sat a c = some true := by
  induction cs with
  | nil => simp
  | cons c cs ih =>
    rw [solved_clauses] at h
    cases hc : clause_sat a c with
    | none => rw [hc] at h; exact absurd h (by simp)
    | some b =>
      rw [hc] at h
      cases b with
      | false => exact absurd h (by simp)
      | true =>
        intro c' hmem
        rcases List.mem_cons.1 hmem with rfl | hmem'
        · exact hc
        · exact ih h c' hmem'

theorem solved_clauses_false {a : Assignment} {cs : List (List Literal)}
    (h : solved_clauses a cs = some false) : ∃ c ∈ cs, clause_sat a c = some false := by
  induction cs with
  | nil => simp [solved_clauses] at h
  | cons c cs ih =>
    rw [solved_clauses] at h
    cases hc : clause_sat a c with
    | none => rw [hc] at h; exact absurd h (by simp)
    | some b =>
      rw [hc] at h
      cases b with
      | false => exact ⟨c, List.mem_cons_self .., hc⟩
      | true =>
        obtain ⟨c', hmem, h'⟩ := ih h
        exact ⟨c', List.mem_cons_of_mem _ hmem, h'⟩

theorem solved_clauses_isSome {a : Assignment} {cs : List (List Literal)}
    (hin : ∀ c ∈ cs, ∀ l ∈ c, l.var_id < a.assignment.length) :
    ∃ b, solved_clauses a cs = some b := by
  induction cs with
  | nil => exact ⟨true, rfl⟩
  | cons c cs ih =>
    rw [solved_clauses]
    obtain ⟨b, hb⟩ := clause_sat_isSome (hin c (List.mem_cons_self ..))
    rw [hb]
    cases b with
    | false => exact ⟨false, rfl⟩
    | true => exact ih fun x hx => hin x (List.mem_cons_of_mem _ hx)

theorem solved_clauses_false_of_mem {a : Assignment} {cs : List (List Literal)}
    {c0 : List Literal}
    (hsome : ∀ c ∈ cs, ∃ b, clause_sat a c = some b)
    (hc : c0 ∈ cs) (h0 : clause_sat a c0 = some false) :
    solved_clauses a cs = some false := by
  induction cs with
  | nil => simp at hc
  | cons c cs ih =>
    rw [solved_clauses]
    obtain ⟨b, hb⟩ := hsome c (List.mem_cons_self ..)
    rcases List.mem_cons.1 hc with rfl | hmem
    · rw [h0]
    · rw [hb]
      cases b with
      | false => rfl
      | true => exact ih (fun x hx => hsome x (List.mem_cons_of_mem _ hx)) hmem

theorem unsolvable_clauses_true {a : Assignment} {cs : List (List Literal)}
    (h : unsolvable_clauses a cs = some true) : ∃ c ∈ cs, clause_live a c = some false := by
  induction cs with
  | nil => simp [unsolvable_clauses] at h
  | cons c cs ih =>
    rw [unsolvable_clauses] at h
    cases hc : clause_live a c with
    | none => rw [hc] at h; exact absurd h (by simp)
    | some b =>
      rw [hc] at h
      cases b with
      | false => exact ⟨c, List.mem_cons_self .., hc⟩
      | true =>
        obtain ⟨c', hmem, h'⟩ := ih h
        exact ⟨c', List.mem_cons_of_mem _ hmem, h'⟩

theorem unsolvable_clauses_isSome {a : Assignment} {cs : List (List Literal)}
    (hin : ∀ c ∈ cs, ∀ l ∈ c, l.var_id < a.assignment.length) :
    ∃ b, unsolvable_clauses a cs = some b := by
  induction cs with
  | nil => exact ⟨false, rfl⟩
  | cons c cs ih =>
    rw [unsolvable_clauses]
    obtain ⟨b, hb⟩ := clause_live_isSome (hin c (List.mem_cons_self ..))
    rw [hb]
    cases b with
    | false => exact ⟨true, rfl⟩
    | true => exact ih fun x hx => hin x (List.mem_cons_of_mem _ hx)

theorem unsolvable_clauses_true_of_mem {a : Assignment} {cs : List (List Literal)}
    {c0 : List Literal}
    (hsome : ∀ c ∈ cs, ∃ b, clause_live a c = some b)
    (hc : c0 ∈ cs) (h0 : clause_live a c0 = some false) :
    unsolvable_clauses a cs = some true := by
  induction cs with
  | nil => simp at hc
  | cons c cs ih =>
    rw [unsolvable_clauses]
    obtain ⟨b, hb⟩ := hsome c (List.mem_cons_self ..)
    rcases List.mem_cons.1 hc with rfl | hmem
    · rw [h0]
    · rw [hb]
      cases b with
      | false => rfl
      | true => exact ih (fun x hx => hsome x (List.mem_cons_of_mem _ hx)) hmem

end Formula

/-! ## Lemmas about `Assignment` states and the search invariant -/

/-- Setting a list cell to the value it already holds is the identity. -/
theorem list_set_self {α : Type _} :
    ∀ {l : List α} {i : Nat} {x : α}, l[i]? = some x → l.set i x = l
  | [], i, x, h => by simp at h
  | a :: l, 0, x, h => by
    simp only [List.getElem?_cons_zero, Option.some.injEq] at h
    rw [List.set, h]
  | a :: l, i + 1, x, h => by
    rw [List.set, list_set_self (by simpa using h)]

theorem Assignment.assign_eq_some {a a1 : Assignment} {l : Literal}
    (h : a.assign l = some a1) :
    l.var_id < a.assignment.length ∧
      a1 = ⟨a.assignment.set l.var_id (some l.negated), a.num_assigned + 1⟩ := by
  rw [Assignment.assign] at h
  by_cases hlt : l.var_id < a.assignment.length
  · rw [if_pos hlt] at h
    exact ⟨hlt, (Option.some.inj h).symm⟩
  · rw [if_neg hlt] at h
    exact absurd h (by simp)

theorem Assignment.assign_isSome {a : Assignment} {l : Literal}
    (hlt : l.var_id < a.assignment.length) :
    a.assign l = some ⟨a.assignment.set l.var_id (some l.negated), a.num_assigned + 1⟩ := by
  rw [Assignment.assign, if_pos hlt]

theorem Assignment.un_assign_eq_some {a a1 : Assignment} {l : Literal}
    (h : a.un_assign l = some a1) :
    l.var_id < a.assignment.length ∧
      a1 = ⟨a.assignment.set l.var_id none, a.num_assigned - 1⟩ := by
  rw [Assignment.un_assign] at h
  by_cases hlt : l.var_id < a.assignment.length
  · rw [if_pos hlt] at h
    exact ⟨hlt, (Option.some.inj h).symm⟩
  · rw [if_neg hlt] at h
    exact absurd h (by simp)

theorem Assignment.un_assign_isSome {a : Assignment} {l : Literal}
    (hlt : l.var_id < a.assignment.length) :
    a.un_assign l = some ⟨a.assignment.set l.var_id none, a.num_assigned - 1⟩ := by
  rw [Assignment.un_assign, if_pos hlt]

theorem Assignment.Inv.assigned {a : Assignment} (h : a.Inv) {i : Nat}
    (h1 : 1 ≤ i) (h2 : i ≤ a.num_assigned) (hi : i < a.assignment.length) :
    ∃ b, a.assignment[i]? = some (some b) :=
  (h i hi).2 ⟨h1, h2⟩

theorem Assignment.Inv.unassigned {a : Assignment} (h : a.Inv) {i : Nat}
    (hgt : ¬(1 ≤ i ∧ i ≤ a.num_assigned)) (hi : i < a.assignment.length) :
    a.assignment[i]? = some none := by
  have hiff := h i hi
  cases hv : a.assignment[i]? with
  | none =>
    have := List.getElem?_eq_getElem hi
    rw [hv] at this
    exact absurd this (by simp)
  | some v =>
    cases v with
    | none => rfl
    | some b => exact absurd (hiff.1 ⟨b, hv⟩) hgt

theorem Assignment.new_Inv (n : Nat) : (Assignment.new n).Inv := by
  intro i hi
  rw [Assignment.new] at hi ⊢
  simp only [List.length_replicate] at hi
  rw [List.getElem?_replicate, if_pos hi]
  simp
  omega

theorem Assignment.new_length (n : Nat) :
    (Assignment.new n).assignment.length = n + 1 := by
  rw [Assignment.new, List.length_replicate]

theorem Assignment.Inv.assign_next {a a1 : Assignment} {l : Literal} (h : a.Inv)
    (hv : l.var_id = a.num_assigned + 1) (ha : a.assign l = some a1) : a1.Inv := by
  obtain ⟨hlt, rfl⟩ := Assignment.assign_eq_some ha
  intro i hi
  simp only [List.length_set] at hi
  by_cases hii : i = l.var_id
  · subst hii
    rw [List.getElem?_set_self hlt]
    constructor
    · intro _
      dsimp only
      omega
    · intro _
      exact ⟨l.negated, rfl⟩
  · rw [List.getElem?_set_ne fun hh => hii hh.symm]
    rw [h i hi]
    rw [hv] at hii
    dsimp only
    omega

theorem Assignment.Inv.un_assign_top {a a3 : Assignment} {l : Literal} (h : a.Inv)
    (hv : l.var_id = a.num_assigned) (h1 : 1 ≤ a.num_assigned)
    (ha : a.un_assign l = some a3) : a3.Inv := by
  obtain ⟨hlt, rfl⟩ := Assignment.un_assign_eq_some ha
  intro i hi
  simp only [List.length_set] at hi
  by_cases hii : i = l.var_id
  · subst hii
    rw [List.getElem?_set_self hlt]
    constructor
    · rintro ⟨b, hb⟩
      exact absurd hb (by simp)
    · rintro ⟨_, h2⟩
      dsimp only at h2
      rw [hv] at h2
      omega
  · rw [List.getElem?_set_ne fun hh => hii hh.symm]
    rw [h i hi]
    rw [hv] at hii
    dsimp only
    omega

/-- The backtracking identity: assigning a fresh top variable and then
un-assigning it (through any literal with the same variable id) restores the
assignment exactly. -/
theorem Assignment.assign_un_assign {a a1 a3 : Assignment} {l l' : Literal}
    (hInv : a.Inv) (hv : l.var_id = a.num_assigned + 1) (hv' : l'.var_id = l.var_id)
    (h1 : a.assign l = some a1) (h3 : a1.un_assign l' = some a3) : a3 = a := by
  obtain ⟨hlt, rfl⟩ := Assignment.assign_eq_some h1
  obtain ⟨hlt', rfl⟩ := Assignment.un_assign_eq_some h3
  rw [hv', List.set_set]
  have hnone : a.assignment[l.var_id]? = some none :=
    hInv.unassigned (by omega) hlt
  rw [list_set_self hnone]
  cases a
  simp

theorem Agrees.assign {σ : Nat → Bool} {a a1 : Assignment} {l : Literal}
    (hσ : Agrees σ a) (hl : σ l.var_id = !l.negated)
    (h1 : a.assign l = some a1) : Agrees σ a1 := by
  obtain ⟨hlt, rfl⟩ := Assignment.assign_eq_some h1
  intro v b hvb
  by_cases hv : l.var_id = v
  · subst hv
    rw [List.getElem?_set_self hlt] at hvb
    have : l.negated = b := by simpa using hvb
    rw [← this]
    exact hl
  · rw [List.getElem?_set_ne hv] at hvb
    exact hσ v b hvb

/-- A formula locally detected `unsolvable` has no satisfying total assignment
among those agreeing with the current partial assignment. -/
theorem not_satisfies_of_unsolvable {F : Formula} {a : Assignment} {σ : Nat → Bool}
    (hu : F.unsolvable a = some true) (hσ : Agrees σ a) : ¬ Satisfies σ F := by
  obtain ⟨c, hc, hlive⟩ := Formula.unsolvable_clauses_true hu
  intro hsat
  obtain ⟨l, hl, hlit⟩ := hsat c hc
  have hf : litFalse a l := Formula.clause_live_false hlive l hl
  have hσl : σ l.var_id = !(!l.negated) := hσ _ _ hf
  rw [litSat] at hlit
  rw [hlit] at hσl
  cases l.negated <;> simp at hσl

/-- With all `num_vars` variables assigned (and the formula well-formed), a
state that is not `solved` is `unsolvable`: the two terminal checks are
exhaustive at the bottom of the search tree. -/
theorem unsolvable_of_full {F : Formula} {a : Assignment}
    (hWF : F.WF) (hInv : a.Inv)
    (hlen : a.assignment.length = F.num_vars + 1)
    (hfull : F.num_vars ≤ a.num_assigned)
    (hs : F.solved a = some false) : F.unsolvable a = some true := by
  obtain ⟨c, hc, hcf⟩ := Formula.solved_clauses_false hs
  have hin : ∀ c' ∈ F.formula, ∀ l ∈ c', l.var_id < a.assignment.length := by
    intro c' hc' l hl
    have := hWF c' hc' l hl
    omega
  have hall : ∀ l ∈ c, litFalse a l := by
    intro l hl
    obtain ⟨v, hv, hne⟩ := Formula.clause_sat_false hcf l hl
    obtain ⟨b, hb⟩ := hInv.assigned (hWF c hc l hl).1
      (le_trans (hWF c hc l hl).2 hfull) (hin c hc l hl)
    rw [hb] at hv
    have hvb : v = some b := by simpa using hv.symm
    subst hvb
    rw [litFalse, hb]
    have : b = !l.negated := by
      cases b <;> cases hneg : l.negated <;> simp_all
    rw [this]
  exact Formula.unsolvable_clauses_true_of_mem
    (fun c' hc' => Formula.clause_live_isSome (hin c' hc')) hc
    (Formula.clause_live_of_litFalse hall)

/-! ## The main induction over `dpll` runs -/

/-- Main lemma about `dpll`, by induction on fuel.  From a state satisfying
the search invariant, a normal return (`out`) preserves the vector length and
the invariant; a `false` return restores the entry state exactly and
witnesses that no total assignment agreeing with the entry state satisfies
the formula; a `true` return ends in a state on which `solved` holds. -/
theorem dpll_main :
    ∀ (fuel : Nat) (F : Formula) (a : Assignment), a.Inv →
      ∀ b a', dpll fuel F a = .out b a' →
        a'.assignment.length = a.assignment.length ∧ a'.Inv ∧
        (b = false → a' = a ∧ ∀ σ, Agrees σ a → ¬ Satisfies σ F) ∧
        (b = true → F.solved a' = some true) := by
  intro fuel
  induction fuel with
  | zero =>
    intro F a _ b a' h
    exact absurd h (by simp [dpll])
  | succ fuel ih =>
    intro F a hInv b a' h
    rw [dpll] at h
    cases hs : F.solved a with
    | none => rw [hs] at h; simp at h
    | some sb =>
      rw [hs] at h
      cases sb with
      | true =>
        simp only [DpllResult.out.injEq] at h
        obtain ⟨hb, ha'⟩ := h
        subst hb
        subst ha'
        exact ⟨rfl, hInv, fun hh => absurd hh (by decide), fun _ => hs⟩
      | false =>
        cases hu : F.unsolvable a with
        | none => rw [hu] at h; simp at h
        | some ub =>
          rw [hu] at h
          cases ub with
          | true =>
            simp only [DpllResult.out.injEq] at h
            obtain ⟨hb, ha'⟩ := h
            subst hb
            subst ha'
            exact ⟨rfl, hInv,
              fun _ => ⟨rfl, fun σ hσ => not_satisfies_of_unsolvable hu hσ⟩,
              fun hh => absurd hh (by decide)⟩
          | false =>
            cases h1 : a.assign a.next_literal with
            | none => rw [h1] at h; simp at h
            | some a1 =>
              rw [h1] at h
              simp only [] at h
              have hInv1 : a1.Inv := hInv.assign_next rfl h1
              obtain ⟨hlt1, ha1⟩ := Assignment.assign_eq_some h1
              cases hr1 : dpll fuel F a1 with
              | oob => rw [hr1] at h; simp at h
              | fuelOut => rw [hr1] at h; simp at h
              | out b2 a2 =>
                rw [hr1] at h
                cases b2 with
                | true =>
                  simp only [DpllResult.out.injEq] at h
                  obtain ⟨hb, ha'⟩ := h
                  subst hb
                  subst ha'
                  obtain ⟨hL, hI, _, hT⟩ := ih F a1 hInv1 true a2 hr1
                  refine ⟨?_, hI, fun hh => absurd hh (by decide), fun _ => hT rfl⟩
                  rw [hL, ha1]
                  dsimp only
                  rw [List.length_set]
                | false =>
                  simp only [] at h
                  obtain ⟨hL2, hI2, hres, _⟩ := ih F a1 hInv1 false a2 hr1
                  obtain ⟨rfl, hnosat1⟩ := hres rfl
                  cases h3 : a2.un_assign a.next_literal with
                  | none => rw [h3] at h; simp at h
                  | some a3 =>
                    rw [h3] at h
                    simp only [] at h
                    have ha3 : a3 = a := Assignment.assign_un_assign hInv rfl rfl h1 h3
                    rw [ha3] at h
                    cases h4 : a.assign a.next_literal.not with
                    | none => rw [h4] at h; simp at h
                    | some a4 =>
                      rw [h4] at h
                      simp only [] at h
                      have hInv4 : a4.Inv := hInv.assign_next rfl h4
                      obtain ⟨hlt4, ha4⟩ := Assignment.assign_eq_some h4
                      cases hr2 : dpll fuel F a4 with
                      | oob => rw [hr2] at h; simp at h
                      | fuelOut => rw [hr2] at h; simp at h
                      | out b5 a5 =>
                        rw [hr2] at h
                        cases b5 with
                        | true =>
                          simp only [DpllResult.out.injEq] at h
                          obtain ⟨hb, ha'⟩ := h
                          subst hb
                          subst ha'
                          obtain ⟨hL5, hI5, _, hT5⟩ := ih F a4 hInv4 true a5 hr2
                          refine ⟨?_, hI5, fun hh => absurd hh (by decide),
                            fun _ => hT5 rfl⟩
                          rw [hL5, ha4]
                          dsimp only
                          rw [List.length_set]
                        | false =>
                          simp only [] at h
                          obtain ⟨hL5, hI5, hres5, _⟩ := ih F a4 hInv4 false a5 hr2
                          obtain ⟨rfl, hnosat4⟩ := hres5 rfl
                          cases h6 : a5.un_assign a.next_literal with
                          | none => rw [h6] at h; simp at h
                          | some a6 =>
                            rw [h6] at h
                            simp only [DpllResult.out.injEq] at h
                            obtain ⟨hb, ha'⟩ := h
                            subst hb
                            subst ha'
                            have ha6 : a6 = a :=
                              Assignment.assign_un_assign hInv rfl rfl h4 h6
                            rw [ha6]
                            refine ⟨rfl, hInv, fun _ => ⟨rfl, ?_⟩,
                              fun hh => absurd hh (by decide)⟩
                            intro σ hσ hsat
                            cases hσv : σ a.next_literal.var_id with
                            | true => exact hnosat1 σ (hσ.assign hσv h1) hsat
                            | false =>
                              refine hnosat4 σ (hσ.assign ?_ h4) hsat
                              show σ a.next_literal.var_id = !(!false)
                              rw [hσv]
                              rfl

/-- Under the spec's Formula invariant, `dpll` with fuel at least
`num_vars + 1 - num_assigned` neither panics nor exhausts its fuel: it
returns normally.  Termination holds because each recursive descent strictly
increases `num_assigned`, which stays bounded by `num_vars`; at a full
assignment the two terminal checks are exhaustive (`unsolvable_of_full`), so
the branch case — and with it `next_literal` — is never reached without an
unassigned variable. -/
theorem dpll_total :
    ∀ (fuel : Nat) (F : Formula) (a : Assignment),
      F.WF → a.Inv →
      a.assignment.length = F.num_vars + 1 →
      a.num_assigned ≤ F.num_vars →
      F.num_vars + 1 - a.num_assigned ≤ fuel →
      ∃ b a', dpll fuel F a = .out b a' := by
  intro fuel
  induction fuel with
  | zero =>
    intro F a _ _ _ hn hfuel
    exfalso
    omega
  | succ fuel ih =>
    intro F a hWF hInv hlen hn hfuel
    have hin : ∀ c ∈ F.formula, ∀ l ∈ c, l.var_id < a.assignment.length := by
      intro c hc l hl
      have := hWF c hc l hl
      omega
    obtain ⟨s, hs0⟩ := Formula.solved_clauses_isSome (a := a) hin
    have hs : F.solved a = some s := hs0
    rw [dpll, hs]
    cases s with
    | true => exact ⟨true, a, rfl⟩
    | false =>
      simp only []
      obtain ⟨u, hu0⟩ := Formula.unsolvable_clauses_isSome (a := a) hin
      have hu : F.unsolvable a = some u := hu0
      rw [hu]
      cases u with
      | true => exact ⟨false, a, rfl⟩
      | false =>
        simp only []
        have hlt : a.num_assigned < F.num_vars := by
          rcases Nat.lt_or_ge a.num_assigned F.num_vars with h | h
          · exact h
          · have := unsolvable_of_full hWF hInv hlen h hs
            rw [hu] at this
            exact absurd (Option.some.inj this) (by decide)
        have hltv : a.next_literal.var_id < a.assignment.length := by
          show a.num_assigned + 1 < a.assignment.length
          omega
        have h1 := Assignment.assign_isSome hltv
        rw [h1]
        simp only []
        set a1 : Assignment :=
          ⟨a.assignment.set a.next_literal.var_id (some a.next_literal.negated),
            a.num_assigned + 1⟩ with ha1
        have hInv1 : a1.Inv := hInv.assign_next rfl h1
        have hlen1 : a1.assignment.length = F.num_vars + 1 := by
          rw [ha1]
          dsimp only
          rw [List.length_set]
          exact hlen
        have hn1 : a1.num_assigned ≤ F.num_vars := by
          rw [ha1]
          dsimp only
          omega
        have hfuel1 : F.num_vars + 1 - a1.num_assigned ≤ fuel := by
          rw [ha1]
          dsimp only
          omega
        obtain ⟨b2, a2, hr1⟩ := ih F a1 hWF hInv1 hlen1 hn1 hfuel1
        rw [hr1]
        cases b2 with
        | true => exact ⟨true, a2, rfl⟩
        | false =>
          simp only []
          obtain ⟨_, _, hres, _⟩ := dpll_main fuel F a1 hInv1 false a2 hr1
          obtain ⟨heq, _⟩ := hres rfl
          rw [heq]
          have hltv1 : a.next_literal.var_id < a1.assignment.length := by
            rw [hlen1]
            show a.num_assigned + 1 < F.num_vars + 1
            omega
          have h3 := Assignment.un_assign_isSome (a := a1) (l := a.next_literal) hltv1
          rw [h3]
          simp only []
          have ha3 : (⟨a1.assignment.set a.next_literal.var_id none,
              a1.num_assigned - 1⟩ : Assignment) = a :=
            Assignment.assign_un_assign hInv rfl rfl h1 h3
          rw [ha3]
          have hltv' : a.next_literal.not.var_id < a.assignment.length := hltv
          have h4 := Assignment.assign_isSome hltv'
          rw [h4]
          simp only []
          set a4 : Assignment :=
            ⟨a.assignment.set a.next_literal.not.var_id
              (some a.next_literal.not.negated), a.num_assigned + 1⟩ with ha4
          have hInv4 : a4.Inv := hInv.assign_next rfl h4
          have hlen4 : a4.assignment.length = F.num_vars + 1 := by
            rw [ha4]
            dsimp only
            rw [List.length_set]
            exact hlen
          have hn4 : a4.num_assigned ≤ F.num_vars := by
            rw [ha4]
            dsimp only
            omega
          have hfuel4 : F.num_vars + 1 - a4.num_assigned ≤ fuel := by
            rw [ha4]
            dsimp only
            omega
          obtain ⟨b5, a5, hr2⟩ := ih F a4 hWF hInv4 hlen4 hn4 hfuel4
          rw [hr2]
          cases b5 with
          | true => exact ⟨true, a5, rfl⟩
          | false =>
            simp only []
            obtain ⟨_, _, hres5, _⟩ := dpll_main fuel F a4 hInv4 false a5 hr2
            obtain ⟨heq5, _⟩ := hres5 rfl
            rw [heq5]
            have hltv4 : a.next_literal.var_id < a4.assignment.length := by
              rw [hlen4]
              show a.num_assigned + 1 < F.num_vars + 1
              omega
            have h6 := Assignment.un_assign_isSome (a := a4) (l := a.next_literal) hltv4
            rw [h6]
            exact ⟨false, _, rfl⟩

/-! ## Claim theorems -/

/-- C1 (Soundness): for every Formula on which `solve` returns an assignment,
every clause of the formula contains at least one literal whose polarity
matches the assignment's recorded polarity for its variable (`litTrue`). -/
theorem solve_sound (F : Formula) (a : Assignment)
    (h : F.solve = some (some a)) :
    ∀ c ∈ F.formula, ∃ l ∈ c, litTrue a l := by
  rw [Formula.solve] at h
  cases hr : dpll (F.num_vars + 1) F (Assignment.new F.num_vars) with
  | oob => rw [hr] at h; simp at h
  | fuelOut => rw [hr] at h; simp at h
  | out b a' =>
    rw [hr] at h
    cases b with
    | false => simp at h
    | true =>
      have ha : a' = a := by simpa using h
      rw [ha] at hr
      obtain ⟨_, _, _, hT⟩ :=
        dpll_main _ F _ (Assignment.new_Inv F.num_vars) true a hr
      have hsolved : Formula.solved_clauses a F.formula = some true := hT rfl
      intro c hc
      exact Formula.clause_sat_true (Formula.solved_clauses_true hsolved c hc)

/-- Witness for `solve_sound` on the one-variable formula `{{1}}`. -/
theorem solve_sound_witness :
    Formula.solve { formula := [[⟨1, false⟩]], num_vars := 1 } =
      some (some { assignment := [none, some false], num_assigned := 1 }) ∧
    ∀ c ∈ ({ formula := [[⟨1, false⟩]], num_vars := 1 } : Formula).formula,
      ∃ l ∈ c, litTrue { assignment := [none, some false], num_assigned := 1 } l :=
  ⟨by decide, solve_sound _ _ (by decide)⟩

/-- C2 (Completeness): for every Formula on which `solve` returns `None`, no
total assignment of truth values to the variables satisfies every clause.
Total assignments are quantified as functions `Nat → Bool`, which covers in
particular all `2^num_vars` assignments to the variables `1 .. num_vars`
(under the Formula invariant no other variable occurs). -/
theorem solve_complete (F : Formula) (h : F.solve = some none) :
    ∀ σ : Nat → Bool, ¬ Satisfies σ F := by
  rw [Formula.solve] at h
  cases hr : dpll (F.num_vars + 1) F (Assignment.new F.num_vars) with
  | oob => rw [hr] at h; simp at h
  | fuelOut => rw [hr] at h; simp at h
  | out b a' =>
    rw [hr] at h
    cases b with
    | true => simp at h
    | false =>
      obtain ⟨_, _, hres, _⟩ :=
        dpll_main _ F _ (Assignment.new_Inv F.num_vars) false a' hr
      obtain ⟨_, hnosat⟩ := hres rfl
      intro σ
      refine hnosat σ ?_
      intro v b hvb
      rw [Assignment.new] at hvb
      dsimp only at hvb
      rw [List.getElem?_replicate] at hvb
      by_cases hv : v < F.num_vars + 1
      · rw [if_pos hv] at hvb
        exact absurd hvb (by simp)
      · rw [if_neg hv] at hvb
        exact absurd hvb (by simp)

/-- Witness for `solve_complete` on the contradiction `{{1}, {¬1}}`. -/
theorem solve_complete_witness :
    Formula.solve { formula := [[⟨1, false⟩], [⟨1, true⟩]], num_vars := 1 } =
      some none ∧
    ∀ σ : Nat → Bool,
      ¬ Satisfies σ { formula := [[⟨1, false⟩], [⟨1, true⟩]], num_vars := 1 } :=
  ⟨by decide, solve_complete _ (by decide)⟩

/-- C3 (Termination): for every Formula whose literals all have variable ids
in `[1, num_vars]`, the recursive search returns a normal result with any
fuel of at least `num_vars + 1`: the recursion depth never exceeds that
bound, because each recursive descent strictly increases the count of
assigned variables, which is bounded by `num_vars`. -/
theorem dpll_terminates (F : Formula) (hWF : F.WF) (fuel : Nat)
    (hfuel : F.num_vars + 1 ≤ fuel) :
    ∃ b a', dpll fuel F (Assignment.new F.num_vars) = .out b a' :=
  dpll_total fuel F _ hWF (Assignment.new_Inv F.num_vars)
    (Assignment.new_length F.num_vars) (Nat.zero_le _) (by simpa using hfuel)

/-- Witness for `dpll_terminates`. -/
theorem dpll_terminates_witness :
    Formula.WF { formula := [[⟨1, false⟩]], num_vars := 1 } ∧ 1 + 1 ≤ 2 ∧
    ∃ b a', dpll 2 { formula := [[⟨1, false⟩]], num_vars := 1 }
      (Assignment.new 1) = .out b a' :=
  ⟨by decide, by decide, dpll_terminates _ (by decide) 2 (by decide)⟩

/-- C4, counterexample: `parse_dimacs` accepts this two-line DIMACS input
even though the literal `2` exceeds the declared `num_vars = 1`; on the
parsed formula the very first `solved` scan indexes the assignment vector
(of length `num_vars + 1 = 2`) at position 2, out of bounds, so `solve`
panics (modelled `none`) instead of returning a result. -/
theorem parse_accepts_but_solve_panics :
    Formula.parse_dimacs ["p cnf 1 1", "2 0"] =
      .ok { formula := [[⟨2, false⟩]], num_vars := 1 } ∧
    Formula.solve { formula := [[⟨2, false⟩]], num_vars := 1 } = none :=
  ⟨by rfl, by decide⟩

/-- C4, amended: on every Formula satisfying the data-model invariant (all
literal variable ids within `[1, num_vars]`) the search engine is total:
`solve` completes without panic — every assignment-vector access is in
bounds and the branch case is structurally prevented once all variables are
assigned. -/
theorem solve_total (F : Formula) (hWF : F.WF) : ∃ r, F.solve = some r := by
  obtain ⟨b, a', hr⟩ := dpll_total (F.num_vars + 1) F _ hWF
    (Assignment.new_Inv F.num_vars) (Assignment.new_length F.num_vars)
    (Nat.zero_le _) (by simp)
  rw [Formula.solve, hr]
  cases b with
  | true => exact ⟨some a', rfl⟩
  | false => exact ⟨none, rfl⟩

/-- Witness for `solve_total`. -/
theorem solve_total_witness :
    Formula.WF { formula := [[⟨1, false⟩]], num_vars := 1 } ∧
    ∃ r, Formula.solve { formula := [[⟨1, false⟩]], num_vars := 1 } = some r :=
  ⟨by decide, solve_total _ (by decide)⟩

/-- C8 (atomicity on failure): whenever a `dpll` call returns `false` from a
state satisfying the search invariant, the Assignment is restored to exactly
the state it had on entry; in particular when `solve` fails, the fresh
assignment it started from is fully unassigned again at that point. -/
theorem dpll_false_restores (F : Formula) (a a' : Assignment) (fuel : Nat)
    (hInv : a.Inv) (h : dpll fuel F a = .out false a') : a' = a :=
  ((dpll_main fuel F a hInv false a' h).2.2.1 rfl).1

/-- Witness for `dpll_false_restores` on the contradiction `{{1}, {¬1}}`:
the failed search returns the fully unassigned entry state. -/
theorem dpll_false_restores_witness :
    (Assignment.new 1).Inv ∧
    dpll 2 { formula := [[⟨1, false⟩], [⟨1, true⟩]], num_vars := 1 }
      (Assignment.new 1) = .out false (Assignment.new 1) ∧
    Assignment.new 1 = Assignment.new 1 :=
  ⟨by decide, by decide,
    dpll_false_restores { formula := [[⟨1, false⟩], [⟨1, true⟩]], num_vars := 1 }
      (Assignment.new 1) (Assignment.new 1) 2 (by decide) (by decide)⟩

/-- C10: `un_assign` clears the variable's slot and decrements the counter
without ever reading the literal's polarity, so un-assigning a literal and
un-assigning its negation produce identical states.  The backtracking code in
`dpll` relies on exactly this: after assigning `!next` it backtracks with
`un_assign(next)`, not `un_assign(!next)`. -/
theorem un_assign_not_eq (a : Assignment) (l : Literal) :
    a.un_assign l.not = a.un_assign l := rfl

/-- The assignments on which `dpll` is invoked during `Formula.solve`: the
initial fresh assignment, and, from any reached branch state (neither solved
nor unsolvable), the two states handed to the recursive calls.  The second
constructor uses the entry state `a1` of the first recursive call directly:
by the restoration part of `dpll_main`, a failed first call hands back
exactly `a1`, so `(a1.un_assign next).assign !next` is the state the second
call receives. -/
inductive DpllCall (F : Formula) : Assignment → Prop
  | init : DpllCall F (Assignment.new F.num_vars)
  | branch_pos {a a1 : Assignment} (h : DpllCall F a)
      (hs : F.solved a = some false) (hu : F.unsolvable a = some false)
      (h1 : a.assign a.next_literal = some a1) : DpllCall F a1
  | branch_neg {a a1 a3 a4 : Assignment} (h : DpllCall F a)
      (hs : F.solved a = some false) (hu : F.unsolvable a = some false)
      (h1 : a.assign a.next_literal = some a1)
      (h3 : a1.un_assign a.next_literal = some a3)
      (h4 : a3.assign a.next_literal.not = some a4) : DpllCall F a4

/-- Every state on which `dpll` is invoked satisfies the search invariant,
keeps the vector length `num_vars + 1`, and has at most `num_vars` assigned
variables. -/
theorem DpllCall.inv {F : Formula} {a : Assignment}
    (h : DpllCall F a) :
    a.Inv ∧ a.assignment.length = F.num_vars + 1 ∧
      a.num_assigned ≤ F.num_vars := by
  induction h with
  | init =>
    exact ⟨Assignment.new_Inv _, Assignment.new_length _, Nat.zero_le _⟩
  | branch_pos h hs hu h1 ih =>
    obtain ⟨hInv, hlen, hn⟩ := ih
    obtain ⟨hlt, ha1⟩ := Assignment.assign_eq_some h1
    rw [hlen] at hlt
    refine ⟨hInv.assign_next rfl h1, ?_, ?_⟩
    · rw [ha1]
      dsimp only
      rw [List.length_set]
      exact hlen
    · rw [ha1]
      dsimp only
      have hlt' : _ + 1 < F.num_vars + 1 := hlt
      omega
  | branch_neg h hs hu h1 h3 h4 ih =>
    obtain ⟨hInv, hlen, hn⟩ := ih
    have ha3 := Assignment.assign_un_assign hInv rfl rfl h1 h3
    rw [ha3] at h4
    obtain ⟨hlt, ha4⟩ := Assignment.assign_eq_some h4
    rw [hlen] at hlt
    refine ⟨hInv.assign_next rfl h4, ?_, ?_⟩
    · rw [ha4]
      dsimp only
      rw [List.length_set]
      exact hlen
    · rw [ha4]
      dsimp only
      have hlt' : _ + 1 < F.num_vars + 1 := hlt
      omega

/-- C5: in every state in which the search engine calls `next_literal` during
`solve` — a reachable state on which neither terminal check fired — the
returned literal is non-negated and its variable, `num_assigned + 1`, is the
lowest-identity variable with no recorded polarity: it is a genuine variable
(within `[1, num_vars]`), it is unassigned, and every variable below it is
assigned. -/
theorem next_literal_lowest_unassigned (F : Formula) (a : Assignment)
    (hWF : F.WF) (hcall : DpllCall F a)
    (hs : F.solved a = some false) (hu : F.unsolvable a = some false) :
    a.next_literal.negated = false ∧
    1 ≤ a.next_literal.var_id ∧ a.next_literal.var_id ≤ F.num_vars ∧
    a.assignment[a.next_literal.var_id]? = some none ∧
    ∀ v, 1 ≤ v → v < a.next_literal.var_id →
      ∃ b, a.assignment[v]? = some (some b) := by
  obtain ⟨hInv, hlen, hn⟩ := hcall.inv
  have hlt : a.num_assigned < F.num_vars := by
    rcases Nat.lt_or_ge a.num_assigned F.num_vars with hx | hx
    · exact hx
    · have := unsolvable_of_full hWF hInv hlen hx hs
      rw [hu] at this
      exact absurd (Option.some.inj this) (by decide)
  refine ⟨rfl, ?_, ?_, ?_, ?_⟩
  · show 1 ≤ a.num_assigned + 1
    omega
  · show a.num_assigned + 1 ≤ F.num_vars
    omega
  · refine hInv.unassigned ?_ ?_
    · show ¬(1 ≤ a.num_assigned + 1 ∧ a.num_assigned + 1 ≤ a.num_assigned)
      omega
    · show a.num_assigned + 1 < a.assignment.length
      omega
  · intro v h1v hv
    have hv' : v < a.num_assigned + 1 := hv
    exact hInv.assigned h1v (by omega) (by omega)

/-- Witness for `next_literal_lowest_unassigned` at the initial call on
`{{1, 2}}` with two variables. -/
theorem next_literal_lowest_unassigned_witness :
    Formula.WF { formula := [[⟨1, false⟩, ⟨2, false⟩]], num_vars := 2 } ∧
    Formula.solved { formula := [[⟨1, false⟩, ⟨2, false⟩]], num_vars := 2 }
      (Assignment.new 2) = some false ∧
    Formula.unsolvable { formula := [[⟨1, false⟩, ⟨2, false⟩]], num_vars := 2 }
      (Assignment.new 2) = some false ∧
    ((Assignment.new 2).next_literal.negated = false ∧
     1 ≤ (Assignment.new 2).next_literal.var_id ∧
     (Assignment.new 2).next_literal.var_id ≤ 2 ∧
     (Assignment.new 2).assignment[(Assignment.new 2).next_literal.var_id]? =
       some none ∧
     ∀ v, 1 ≤ v → v < (Assignment.new 2).next_literal.var_id →
       ∃ b, (Assignment.new 2).assignment[v]? = some (some b)) :=
  ⟨by decide, by decide, by decide,
    next_literal_lowest_unassigned
      { formula := [[⟨1, false⟩, ⟨2, false⟩]], num_vars := 2 }
      (Assignment.new 2) (by decide) DpllCall.init (by decide) (by decide)⟩

/-- C6: the engine's per-clause falsification test — the inner scan of
`unsolvable` finding no literal with `is_not_negated`, i.e. `clause_live`
returning `some false` — holds for a clause iff every literal's variable is
assigned and assigned to the opposite polarity (`litFalse`); in particular a
clause containing a literal on an unassigned variable is never counted as
falsified. -/
theorem clause_falsified_iff (a : Assignment) (c : List Literal) :
    (Formula.clause_live a c = some false ↔ ∀ l ∈ c, litFalse a l) ∧
    ((∃ l ∈ c, a.assignment[l.var_id]? = some none) →
      Formula.clause_live a c ≠ some false) := by
  constructor
  · exact ⟨fun h => Formula.clause_live_false h, Formula.clause_live_of_litFalse⟩
  · rintro ⟨l, hl, hnone⟩ hfalse
    have hlf := Formula.clause_live_false hfalse l hl
    rw [litFalse, hnone] at hlf
    exact absurd (Option.some.inj hlf) (by simp)

/-- C7: a Formula (satisfying the data-model invariant) that contains an
empty clause is unsatisfiable: `solve` returns `None` regardless of the
other clauses and of `num_vars`, because the empty clause satisfies the
falsification test under every assignment, already at the root. -/
theorem solve_empty_clause (F : Formula) (hWF : F.WF)
    (hmem : [] ∈ F.formula) : F.solve = some none := by
  have hin : ∀ c ∈ F.formula, ∀ l ∈ c,
      l.var_id < (Assignment.new F.num_vars).assignment.length := by
    intro c hc l hl
    rw [Assignment.new_length]
    have := hWF c hc l hl
    omega
  have hs : F.solved (Assignment.new F.num_vars) = some false :=
    Formula.solved_clauses_false_of_mem
      (fun c hc => Formula.clause_sat_isSome (hin c hc)) hmem rfl
  have hu : F.unsolvable (Assignment.new F.num_vars) = some true :=
    Formula.unsolvable_clauses_true_of_mem
      (fun c hc => Formula.clause_live_isSome (hin c hc)) hmem rfl
  rw [Formula.solve, dpll, hs, hu]

/-- Witness for `solve_empty_clause`. -/
theorem solve_empty_clause_witness :
    Formula.WF { formula := [[], [⟨1, false⟩]], num_vars := 1 } ∧
    [] ∈ ({ formula := [[], [⟨1, false⟩]], num_vars := 1 } : Formula).formula ∧
    Formula.solve { formula := [[], [⟨1, false⟩]], num_vars := 1 } = some none :=
  ⟨by decide, by decide, solve_empty_clause _ (by decide) (by decide)⟩

/-- Spec-side rendering of a token list: the tokens joined by single spaces
("tokens separated by whitespace").  Written from the spec's output format,
to be compared with the rendering the code produces. -/
def spaceSep : List String → String
  | [] => ""
  | [t] => t
  | t :: ts => t ++ " " ++ spaceSep ts

/-- Splitting lemma for `spaceSep` on a list of at least two tokens. -/
theorem spaceSep_cons_cons (t u : String) (us : List String) :
    spaceSep (t :: u :: us) = t ++ " " ++ spaceSep (u :: us) := rfl

/-- On a fully assigned tail of the vector, the `fmt` loop renders exactly
the whitespace-separated sign-prefixed variable ids followed by the
terminator token `"0"`. -/
theorem renderFrom_spaceSep (A : List (Option Bool)) :
    ∀ (k i : Nat), A.length - i = k → i ≤ A.length →
      (∀ v ∈ A.drop i, v.isSome) →
      renderFrom i (A.drop i) =
        spaceSep ((List.range' i (A.length - i)).map
          (fun v => (if A.getD v none = some true then "-" else "")
            ++ toString v) ++ ["0"]) := by
  intro k
  induction k with
  | zero =>
    intro i hk hle _
    rw [List.drop_eq_nil_of_le (by omega), hk]
    rfl
  | succ k ih =>
    intro i hk hle hall
    have hi : i < A.length := by omega
    have hAi : (A[i] : Option Bool).isSome := by
      apply hall
      rw [List.drop_eq_getElem_cons hi]
      exact List.mem_cons_self ..
    obtain ⟨b, hb⟩ := Option.isSome_iff_exists.1 hAi
    have hrec := ih (i + 1) (by omega) (by omega) (by
      intro v hv
      apply hall
      rw [List.drop_eq_getElem_cons hi]
      exact List.mem_cons_of_mem _ hv)
    have hk1 : A.length - (i + 1) = k := by omega
    rw [List.drop_eq_getElem_cons hi, hk, List.range'_succ, renderFrom, hb,
      hrec, hk1, List.map_cons, List.cons_append]
    have hAD : A.getD i none = some b := by
      rw [List.getD_eq_getElem _ _ hi, hb]
    rw [hAD]
    cases hrest : (List.range' (i + 1) k).map
        (fun v => (if A.getD v none = some true then "-" else "")
          ++ toString v) ++ ["0"] with
    | nil => exact absurd hrest (by simp)
    | cons u us =>
      rw [spaceSep_cons_cons, renderEntry]
      simp only [Option.some.injEq]

/-- C9, counterexample: `solve` can return a partially assigned Assignment
(the search stops once every clause is satisfied), and the rendering then
glues the `UNASSIGNED` marker to the following token — here the terminator:
the output is `"1 2 UNASSIGNED0"`, whose final tokens `UNASSIGNED0` are not
separated by whitespace. -/
theorem render_not_separated :
    Formula.solve { formula := [[⟨1, false⟩]], num_vars := 2 } =
      some (some { assignment := [none, some false, none], num_assigned := 1 }) ∧
    Assignment.render { assignment := [none, some false, none], num_assigned := 1 } =
      "1 2 UNASSIGNED0" :=
  ⟨by decide, by decide⟩

/-- C9, amended: for every Assignment returned by `solve` in which every
variable is assigned, the rendering is exactly the whitespace-separated
sequence of tokens, one per variable in ascending identity order — the
variable id prefixed by `-` if assigned negated, the bare id otherwise —
followed by the terminator token `0`.  (When a variable is unassigned, its
`id UNASSIGNED` entry carries no trailing separator, as the counterexample
shows.) -/
theorem render_separated (F : Formula) (a : Assignment)
    (hsolve : F.solve = some (some a))
    (hfull : ∀ v ∈ a.assignment.drop 1, v.isSome) :
    a.render = spaceSep ((List.range' 1 F.num_vars).map
      (fun v => (if a.assignment.getD v none = some true then "-" else "")
        ++ toString v) ++ ["0"]) := by
  rw [Formula.solve] at hsolve
  cases hr : dpll (F.num_vars + 1) F (Assignment.new F.num_vars) with
  | oob => rw [hr] at hsolve; simp at hsolve
  | fuelOut => rw [hr] at hsolve; simp at hsolve
  | out b a' =>
    rw [hr] at hsolve
    cases b with
    | false => simp at hsolve
    | true =>
      have ha : a' = a := by simpa using hsolve
      rw [ha] at hr
      obtain ⟨hL, _, _, _⟩ :=
        dpll_main _ F _ (Assignment.new_Inv F.num_vars) true a hr
      rw [Assignment.new_length] at hL
      have hrender := renderFrom_spaceSep a.assignment
        (a.assignment.length - 1) 1 rfl (by omega) hfull
      rw [Assignment.render, hrender, hL, Nat.add_sub_cancel]

/-- Witness for `render_separated` on `{{1}, {¬2}}` with two variables: the
returned assignment sets variable 1 positive and variable 2 negated, and the
output is the space-separated `"1 -2 0"`. -/
theorem render_separated_witness :
    Formula.solve ⟨[[⟨1, false⟩], [⟨2, true⟩]], 2⟩ =
      some (some ⟨[none, some false, some true], 2⟩) ∧
    Assignment.render ⟨[none, some false, some true], 2⟩ = "1 -2 0" ∧
    Assignment.render ⟨[none, some false, some true], 2⟩ =
      spaceSep ((List.range' 1 2).map
        (fun v => (if ([none, some false, some true] : List (Option Bool)).getD
            v none = some true then "-" else "") ++ toString v) ++ ["0"]) :=
  ⟨by decide, by decide,
    render_separated ⟨[[⟨1, false⟩], [⟨2, true⟩]], 2⟩
      ⟨[none, some false, some true], 2⟩ (by decide) (by decide)⟩
